import Mathlib

/-!
Verification of the OpenContext context store (`src/mcp/store.ts`) and its
tool-call / REST surfaces (`src/mcp/server.ts`, `src/server.ts`).

Shallow embedding conventions:
* Text is `String` (a list of characters); JavaScript `toLowerCase`,
  `includes`, and `split(/\s+/).filter(Boolean)` are modelled by the
  executable helpers below (ASCII case folding, as the repository only
  relies on ASCII behaviour).
* ISO-8601 timestamps are order-isomorphic to the instants they denote, so
  they are modelled as `Nat`; `new Date().toISOString()` becomes an explicit
  `now : Nat` parameter.
* `randomUUID()` becomes an explicit `newId : String` parameter.
* File-system effects (`writeFileSync`, `mkdirSync`, renames) are modelled
  as an explicit trace of `FsOp` operations; `JSON.parse` (a JavaScript
  builtin) is a `parseStore` function parameter that may fail, and
  `JSON.stringify store` is abstracted by carrying the whole document in
  the write operation.
-/

/-- Whitespace test on code points, modelling the character class `\s`
matched by the regular expression in `searchContexts` (space and the
ASCII control whitespace range). -/
def isWsNat (n : Nat) : Bool :=
  n = 32 || (9 ≤ n && n ≤ 13)

/-- Whitespace test on characters. -/
def isWsChar (c : Char) : Bool := isWsNat c.toNat

/-- ASCII lower-casing of one character, modelling what
`String.prototype.toLowerCase` does on the ASCII range. -/
def lowerChar (c : Char) : Char :=
  if 65 ≤ c.toNat ∧ c.toNat ≤ 90 then Char.ofNat (c.toNat + 32) else c

/-- Model of JavaScript `s.toLowerCase()`. -/
def lowerStr (s : String) : String := String.mk (s.data.map lowerChar)

/-- Model of JavaScript `hay.includes(needle)` on character lists:
`needle` occurs contiguously inside `hay`. -/
def listContains : List Char → List Char → Bool
  | [], needle => needle.isEmpty
  | c :: rest, needle => needle.isPrefixOf (c :: rest) || listContains rest needle

/-- Model of JavaScript `hay.includes(needle)` on strings. -/
def strIncludes (hay needle : String) : Bool := listContains hay.data needle.data

/-- Accumulator-passing worker for `splitWs`: collects maximal runs of
non-whitespace characters. -/
def splitWsAux : List Char → List Char → List (List Char)
  | acc, [] => if acc.isEmpty then [] else [acc.reverse]
  | acc, c :: cs =>
    if isWsChar c then
      if acc.isEmpty then splitWsAux [] cs else acc.reverse :: splitWsAux [] cs
    else splitWsAux (c :: acc) cs

/-- Model of JavaScript `s.split(/\s+/).filter(Boolean)`: the maximal
whitespace-free runs of `s`, in order, with empty strings dropped. -/
def splitWs (s : String) : List String := (splitWsAux [] s.data).map String.mk

/-- The store schema version constant `STORE_VERSION` from `store.ts`. -/
def STORE_VERSION : Nat := 1

/-- A context entry, translated from `ContextEntry` in `src/mcp/types.ts`
(timestamps as `Nat`, see the header). -/
structure ContextEntry where
  id : String
  content : String
  tags : List String
  source : String
  createdAt : Nat
  updatedAt : Nat
deriving Repr, DecidableEq

/-- The persisted store document, translated from `ContextStore` in
`src/mcp/types.ts`. -/
structure ContextStore where
  version : Nat
  entries : List ContextEntry
deriving Repr, DecidableEq

/-- A file-system effect performed by the store.  `writeFileOp` carries the
complete document being written (the code writes `JSON.stringify(store)`). -/
inductive FsOp where
  | mkdirOp (path : String)
  | writeFileOp (path : String) (doc : ContextStore)
  | renameOp (src dst : String)
deriving Repr, DecidableEq

/-- Whether a file-system operation is a rename. -/
def FsOp.isRename : FsOp → Bool
  | renameOp _ _ => true
  | _ => false

/-- `load` from `store.ts`: a missing file (`file = none`) yields the empty
store; otherwise the raw text is handed to `JSON.parse` (the `parseStore`
parameter), whose exception propagates. -/
def load (parseStore : String → Except String ContextStore)
    (file : Option String) : Except String ContextStore :=
  match file with
  | none => Except.ok { version := STORE_VERSION, entries := [] }
  | some raw => parseStore raw

/-- `save` from `store.ts`, as the trace of file-system operations it
performs: ensure the parent directory exists, then one direct
`writeFileSync` of the whole document onto the store path. -/
def save (filePath dir : String) (dirExists : Bool) (store : ContextStore) :
    List FsOp :=
  (if dirExists then [] else [FsOp.mkdirOp dir]) ++ [FsOp.writeFileOp filePath store]

/-- `saveContext` from `store.ts` (in-memory part): build the entry with
both timestamps set to `now` and push it at the end of the entries list. -/
def saveContext (store : ContextStore) (newId content : String)
    (tags : List String) (source : String) (now : Nat) :
    ContextEntry × ContextStore :=
  let entry : ContextEntry :=
    { id := newId, content := content, tags := tags, source := source,
      createdAt := now, updatedAt := now }
  (entry, { store with entries := store.entries ++ [entry] })

/-- `recallContext` from `store.ts`: case-insensitive substring match of the
query against each entry's content or any of its tags. -/
def recallContext (store : ContextStore) (query : String) : List ContextEntry :=
  let lowerQuery := lowerStr query
  store.entries.filter (fun entry =>
    strIncludes (lowerStr entry.content) lowerQuery ||
      entry.tags.any (fun tag => strIncludes (lowerStr tag) lowerQuery))

/-- `listContexts` from `store.ts`: all entries, or (for a non-empty tag,
JavaScript truthiness) the entries having that tag case-insensitively. -/
def listContexts (store : ContextStore) (tag : Option String) : List ContextEntry :=
  match tag with
  | none => store.entries
  | some t =>
    if t = "" then store.entries
    else
      let lowerTag := lowerStr t
      store.entries.filter (fun entry => entry.tags.any (fun s => lowerStr s = lowerTag))

/-- `deleteContext` from `store.ts` (in-memory part): drop the entries with
the given ID; report whether anything was dropped. -/
def deleteContext (store : ContextStore) (id : String) : Bool × ContextStore :=
  let remaining := store.entries.filter (fun entry => entry.id ≠ id)
  if remaining.length < store.entries.length then
    (true, { store with entries := remaining })
  else
    (false, store)

/-- `searchContexts` from `store.ts`: lower-case the query, split it into
whitespace-separated terms, and keep the entries whose lower-cased
content/tags/source text contains every term. -/
def searchContexts (store : ContextStore) (query : String) : List ContextEntry :=
  let lowerQuery := lowerStr query
  let terms := splitWs lowerQuery
  store.entries.filter (fun entry =>
    let text := lowerStr (entry.content ++ " " ++ String.intercalate " " entry.tags
      ++ " " ++ entry.source)
    terms.all (fun term => strIncludes text term))

/-- `getContext` from `store.ts`: first entry with the given ID, if any. -/
def getContext (store : ContextStore) (id : String) : Option ContextEntry :=
  store.entries.find? (fun entry => entry.id = id)

/-- The in-place mutation performed by `updateContext` on the found entry:
new content, tags only when provided, `updatedAt` refreshed. -/
def updateEntry (content : String) (tags : Option (List String)) (now : Nat)
    (e : ContextEntry) : ContextEntry :=
  { e with content := content, tags := tags.getD e.tags, updatedAt := now }

/-- The effect of `updateContext`'s in-place mutation on the entries list:
only the first entry with the given ID is rewritten. -/
def updateEntries (id content : String) (tags : Option (List String)) (now : Nat) :
    List ContextEntry → List ContextEntry
  | [] => []
  | e :: rest =>
    if e.id = id then updateEntry content tags now e :: rest
    else e :: updateEntries id content tags now rest

/-- `updateContext` from `store.ts` (in-memory part): find the entry by ID;
when absent return `none` and leave the store alone, otherwise mutate it. -/
def updateContext (store : ContextStore) (id content : String)
    (tags : Option (List String)) (now : Nat) :
    Option ContextEntry × ContextStore :=
  match store.entries.find? (fun e => e.id = id) with
  | none => (none, store)
  | some e =>
    (some (updateEntry content tags now e),
     { store with entries := updateEntries id content tags now store.entries })

/-- `deleteContext` including its persistence behaviour: the file-system
trace is empty exactly when nothing was deleted (no `save` call). -/
def deleteContextOps (filePath dir : String) (dirExists : Bool)
    (store : ContextStore) (id : String) : Bool × List FsOp :=
  let remaining := store.entries.filter (fun entry => entry.id ≠ id)
  if remaining.length < store.entries.length then
    (true, save filePath dir dirExists { store with entries := remaining })
  else
    (false, [])

/-- `updateContext` including its persistence behaviour: no `save` call when
the ID is unknown. -/
def updateContextOps (filePath dir : String) (dirExists : Bool)
    (store : ContextStore) (id content : String) (tags : Option (List String))
    (now : Nat) : Option ContextEntry × List FsOp :=
  match store.entries.find? (fun e => e.id = id) with
  | none => (none, [])
  | some e =>
    (some (updateEntry content tags now e),
     save filePath dir dirExists
       { store with entries := updateEntries id content tags now store.entries })

/-- Status code of `GET /api/contexts/:id` from `src/server.ts`. -/
def restGetContext (store : ContextStore) (id : String) : Nat :=
  match getContext store id with
  | none => 404
  | some _ => 200

/-- Status code of `PUT /api/contexts/:id` from `src/server.ts` (a missing
or empty body content is JavaScript-falsy and yields 400). -/
def restPutContext (store : ContextStore) (id : String)
    (content : Option String) (tags : Option (List String)) (now : Nat) : Nat :=
  match content with
  | none => 400
  | some c =>
    if c = "" then 400
    else
      match (updateContext store id c tags now).1 with
      | none => 404
      | some _ => 200

/-- Status code of `DELETE /api/contexts/:id` from `src/server.ts`. -/
def restDeleteContext (store : ContextStore) (id : String) : Nat :=
  if (deleteContext store id).1 then 204 else 404

/-- Text returned by the `delete_context` tool in `src/mcp/server.ts`. -/
def mcpDeleteContextText (store : ContextStore) (id : String) : String :=
  if (deleteContext store id).1 then
    "Context " ++ id ++ " deleted."
  else
    "No context found with ID \"" ++ id ++ "\"."

/-- Text returned by the `update_context` tool in `src/mcp/server.ts`. -/
def mcpUpdateContextText (store : ContextStore) (id content : String)
    (tags : Option (List String)) (now : Nat) : String :=
  match (updateContext store id content tags now).1 with
  | none => "No context found with ID \"" ++ id ++ "\"."
  | some u =>
    "Context " ++ u.id ++ " updated.\nTags: " ++
      (if u.tags.length > 0 then String.intercalate ", " u.tags else "none") ++
      "\nUpdated: " ++ toString u.updatedAt

/-- Specification-side predicate for C6, phrased from the claim: the entry's
content contains the query case-insensitively, or some tag does. -/
def specRecallMatches (query : String) (e : ContextEntry) : Bool :=
  strIncludes (lowerStr e.content) (lowerStr query) ||
    e.tags.any (fun t => strIncludes (lowerStr t) (lowerStr query))

/-- The combined text a search term is matched against: the entry's content,
its tags, and its source, space-separated as the code's template literal
builds it. -/
def searchText (e : ContextEntry) : String :=
  e.content ++ " " ++ String.intercalate " " e.tags ++ " " ++ e.source

/-- Specification-side predicate for C5, phrased from the claim: every
whitespace-separated term of the query occurs case-insensitively in the
combined content/tags/source text. -/
def specSearchMatches (query : String) (e : ContextEntry) : Bool :=
  (splitWs query).all (fun term =>
    strIncludes (lowerStr (searchText e)) (lowerStr term))

/-- The claim of C2 as stated: every `save` writes the whole document to a
temporary file and then renames that file onto the store path. -/
def saveWritesTempThenRename : Prop :=
  ∀ (filePath dir : String) (dirExists : Bool) (store : ContextStore),
    ∃ tmp : String, tmp ≠ filePath ∧
      save filePath dir dirExists store =
        (if dirExists then [] else [FsOp.mkdirOp dir]) ++
          [FsOp.writeFileOp tmp store, FsOp.renameOp tmp filePath]

/-- One mutating store operation, with `randomUUID`/`Date.now` data made
explicit; used to state the timestamp invariants of C4. -/
inductive StoreOp where
  | saveOp (newId content : String) (tags : List String) (source : String)
  | updateOp (id content : String) (tags : Option (List String))
  | deleteOp (id : String)
deriving Repr, DecidableEq

/-- Apply one store operation at clock time `now`. -/
def applyOp (store : ContextStore) (op : StoreOp) (now : Nat) : ContextStore :=
  match op with
  | .saveOp newId content tags source => (saveContext store newId content tags source now).2
  | .updateOp id content tags => (updateContext store id content tags now).2
  | .deleteOp id => (deleteContext store id).2

/-- Run a sequence of timed store operations. -/
def runOps (store : ContextStore) : List (StoreOp × Nat) → ContextStore
  | [] => store
  | (op, t) :: rest => runOps (applyOp store op t) rest

/-- The clock readings of a timed operation sequence never decrease,
starting from time `t`. -/
def chronoOps : Nat → List (StoreOp × Nat) → Prop
  | _, [] => True
  | t, (_, t') :: rest => t ≤ t' ∧ chronoOps t' rest

/-- Every entry's `updatedAt` is at most `t` (the store has not been
mutated after time `t`). -/
def updatedLE (store : ContextStore) (t : Nat) : Prop :=
  ∀ e ∈ store.entries, e.updatedAt ≤ t

/-- Final clock reading of a timed operation sequence starting at `t`. -/
def endTimeOps : Nat → List (StoreOp × Nat) → Nat
  | t, [] => t
  | _, (_, t') :: rest => endTimeOps t' rest

/-- Run a sequence of `saveContext` calls, each given as
`(newId, content, tags, source, now)`; used to state C10. -/
def runSaves (store : ContextStore) :
    List (String × String × List String × String × Nat) → ContextStore
  | [] => store
  | (i, c, tg, s, t) :: rest => runSaves (saveContext store i c tg s t).2 rest

/-- The clock readings of a save sequence never decrease, starting at `t`. -/
def chronoSaves : Nat → List (String × String × List String × String × Nat) → Prop
  | _, [] => True
  | t, (_, _, _, _, t') :: rest => t ≤ t' ∧ chronoSaves t' rest

/-- Every entry's `createdAt` is at most `t`. -/
def createdLE (store : ContextStore) (t : Nat) : Prop :=
  ∀ e ∈ store.entries, e.createdAt ≤ t

/-- An entry list is ordered oldest-created first. -/
def sortedByCreated (l : List ContextEntry) : Prop :=
  l.Pairwise (fun a b => a.createdAt ≤ b.createdAt)

/-- Modelled from the spec: a structured-data value (`primitives or string
sequences`, §3 Data model).  The structured-data mapping, the `archived`
flag and the typed-query/archive surface below are absent from the shipped
`store.ts` (only their tests exist in `tests/mcp/store-typed.test.ts`), so
they are modelled from the specification. -/
inductive SValue where
  | strV (s : String)
  | numV (n : Int)
  | boolV (b : Bool)
  | listV (l : List String)
deriving Repr, DecidableEq

/-- Modelled from the spec: a context entry of the self-aware store, §3
Data model — the base entry plus optional type name, optional
structured-data mapping, and an `archived` flag (default false). -/
structure AwareEntry where
  id : String
  content : String
  tags : List String
  source : String
  contextType : Option String
  structuredData : Option (List (String × SValue))
  archived : Bool
  createdAt : Nat
  updatedAt : Nat
deriving Repr, DecidableEq

/-- Modelled from the spec: the persisted self-aware store document
(groups omitted; no claim mentions them). -/
structure AwareStore where
  version : Nat
  entries : List AwareEntry
deriving Repr, DecidableEq

/-- Modelled from the spec: the non-archived entries, which are what every
read operation works on ("All read operations exclude archived entries
unless explicitly asked", §4.A). -/
def activeEntries (s : AwareStore) : List AwareEntry :=
  s.entries.filter (fun e => !e.archived)

/-- Modelled from the spec: substring recall over content and tags of the
active entries (§4.A Contract). -/
def awareRecallContext (s : AwareStore) (query : String) : List AwareEntry :=
  (activeEntries s).filter (fun e =>
    strIncludes (lowerStr e.content) (lowerStr query) ||
      e.tags.any (fun t => strIncludes (lowerStr t) (lowerStr query)))

/-- Modelled from the spec: multi-term conjunctive search over content,
tags, and source of the active entries (§4.A Contract). -/
def awareSearchContexts (s : AwareStore) (query : String) : List AwareEntry :=
  (activeEntries s).filter (fun e =>
    (splitWs (lowerStr query)).all (fun term =>
      strIncludes
        (lowerStr (e.content ++ " " ++ String.intercalate " " e.tags ++ " " ++ e.source))
        term))

/-- Modelled from the spec: list the active entries, optionally
filter-by-tag (§4.A Contract). -/
def awareListContexts (s : AwareStore) (tag : Option String) : List AwareEntry :=
  match tag with
  | none => activeEntries s
  | some t =>
    if t = "" then activeEntries s
    else (activeEntries s).filter (fun e => e.tags.any (fun x => lowerStr x = lowerStr t))

/-- Modelled from the spec: look up one structured-data field. -/
def lookupField (d : List (String × SValue)) (k : String) : Option SValue :=
  (d.find? (fun p => p.1 = k)).map Prod.snd

/-- Modelled from the spec: `query_by_type(type, filter)` returns active
entries whose type name matches and whose structured data satisfies every
field constraint; missing structured data fails any set constraint
(§4.A Filter). -/
def queryByType (s : AwareStore) (ty : String) (filt : List (String × SValue)) :
    List AwareEntry :=
  (activeEntries s).filter (fun e =>
    e.contextType = some ty &&
      filt.all (fun kv =>
        match e.structuredData with
        | none => false
        | some d => lookupField d kv.1 = some kv.2))

/-- Modelled from the spec: direct ID lookup, which does **not** exclude
archived entries ("it remains retrievable by direct ID lookup", §3
Invariant 3). -/
def awareGetContext (s : AwareStore) (id : String) : Option AwareEntry :=
  s.entries.find? (fun e => e.id = id)

/-- Modelled from the spec: the archive-list tool, returning exactly the
archived entries (§3 Invariant 3). -/
def listArchived (s : AwareStore) : List AwareEntry :=
  s.entries.filter (fun e => e.archived)

theorem toNat_ofNat_of_le (m : Nat) (h1 : 97 ≤ m) (h2 : m ≤ 122) :
    (Char.ofNat m).toNat = m := by
  unfold Char.ofNat
  split
  · rfl
  · rename_i h
    exfalso
    apply h
    left
    omega

theorem isWsNat_false_of_ge (n : Nat) (h : 65 ≤ n) : isWsNat n = false := by
  unfold isWsNat
  rw [decide_eq_false (by omega : ¬ n = 32), decide_eq_false (by omega : ¬ n ≤ 13)]
  simp

theorem isWsChar_lowerChar (c : Char) : isWsChar (lowerChar c) = isWsChar c := by
  unfold lowerChar
  split
  · rename_i h
    have h1 : (Char.ofNat (c.toNat + 32)).toNat = c.toNat + 32 :=
      toNat_ofNat_of_le _ (by omega) (by omega)
    unfold isWsChar
    rw [h1, isWsNat_false_of_ge _ (by omega), isWsNat_false_of_ge _ (by omega)]
  · rfl

theorem isEmpty_map_lower (acc : List Char) :
    (acc.map lowerChar).isEmpty = acc.isEmpty := by
  cases acc <;> rfl

theorem splitWsAux_map_lower : ∀ (l acc : List Char),
    splitWsAux (List.map lowerChar acc) (List.map lowerChar l) =
      List.map (List.map lowerChar) (splitWsAux acc l)
  | [], acc => by
    simp only [List.map_nil, splitWsAux, isEmpty_map_lower]
    by_cases h : acc.isEmpty
    · simp [h]
    · simp [h, List.map_reverse]
  | c :: cs, acc => by
    simp only [List.map_cons, splitWsAux, isWsChar_lowerChar, isEmpty_map_lower]
    by_cases hw : isWsChar c
    · by_cases ha : acc.isEmpty
      · have h := splitWsAux_map_lower cs []
        simp only [List.map_nil] at h
        simp [hw, ha, h]
      · have h := splitWsAux_map_lower cs []
        simp only [List.map_nil] at h
        simp [hw, ha, h, List.map_reverse]
    · have h := splitWsAux_map_lower cs (c :: acc)
      simp only [List.map_cons] at h
      simp [hw, h]

theorem splitWs_lowerStr (s : String) :
    splitWs (lowerStr s) = (splitWs s).map lowerStr := by
  unfold splitWs lowerStr
  have h := splitWsAux_map_lower s.data []
  simp only [List.map_nil] at h
  rw [show (String.mk (s.data.map lowerChar)).data = s.data.map lowerChar from rfl, h,
    List.map_map, List.map_map]
  rfl

theorem splitWs_all_lower (q : String) (f : String → Bool) :
    (splitWs (lowerStr q)).all f = (splitWs q).all (fun t => f (lowerStr t)) := by
  rw [splitWs_lowerStr, List.all_map]
  rfl

/-- Claim C5: `searchContexts q` returns exactly the stored entries for
which every whitespace-separated term of `q` occurs case-insensitively in
the combined content/tags/source text (conjunctive multi-term match). -/
theorem c5_search_conjunctive (store : ContextStore) (query : String)
    (e : ContextEntry) :
    e ∈ searchContexts store query ↔
      e ∈ store.entries ∧ specSearchMatches query e = true := by
  unfold searchContexts specSearchMatches searchText
  simp only [List.mem_filter, splitWs_all_lower]

/-- Claim C6: `recallContext q` returns exactly the stored entries whose
content contains `q` case-insensitively or one of whose tags does. -/
theorem c6_recall_substring (store : ContextStore) (query : String)
    (e : ContextEntry) :
    e ∈ recallContext store query ↔
      e ∈ store.entries ∧ specRecallMatches query e = true := by
  unfold recallContext specRecallMatches
  simp only [List.mem_filter]

/-- Claim C8: a missing store file loads as the empty store without error,
so every read on a fresh path returns nothing; an unparseable file makes
`load` fail loudly with the parse exception. -/
theorem c8_load_missing_and_malformed :
    (∀ parseStore, load parseStore none =
        Except.ok { version := STORE_VERSION, entries := [] })
    ∧ (∀ parseStore raw err, parseStore raw = Except.error err →
        load parseStore (some raw) = Except.error err)
    ∧ (∀ query tag id,
        recallContext { version := STORE_VERSION, entries := [] } query = []
        ∧ listContexts { version := STORE_VERSION, entries := [] } tag = []
        ∧ searchContexts { version := STORE_VERSION, entries := [] } query = []
        ∧ getContext { version := STORE_VERSION, entries := [] } id = none) := by
  refine ⟨fun _ => rfl, fun p raw err h => by simp [load, h], fun query tag id => ?_⟩
  refine ⟨rfl, ?_, rfl, rfl⟩
  cases tag with
  | none => rfl
  | some t =>
    simp only [listContexts]
    by_cases h : t = ""
    · rw [if_pos h]
    · rw [if_neg h]
      rfl

theorem c8_witness :
    load (fun _ => Except.error "SyntaxError") (some "not json") =
      Except.error "SyntaxError" :=
  c8_load_missing_and_malformed.2.1 (fun _ => Except.error "SyntaxError")
    "not json" "SyntaxError" rfl

/-- Claim C2 counterexample: at a concrete input, `save` performs a single
direct write of the document onto the store path — there is no temporary
file and no rename, refuting the write-to-temp-then-atomic-rename claim. -/
theorem c2_counterexample :
    (save "/root/.opencontext/contexts.json" "/root/.opencontext" true
        { version := 1, entries := [] } =
      [FsOp.writeFileOp "/root/.opencontext/contexts.json"
        { version := 1, entries := [] }])
    ∧ ¬ saveWritesTempThenRename := by
  refine ⟨rfl, fun h => ?_⟩
  obtain ⟨tmp, _, heq⟩ :=
    h "/root/.opencontext/contexts.json" "/root/.opencontext" true
      { version := 1, entries := [] }
  simp [save] at heq

/-- Claim C2 (amended): every persistence write emits the complete document
in one direct write onto the store file (creating the parent directory
first when missing); no rename operation ever occurs, so no atomic-replace
guarantee is provided. -/
theorem c2_amended_direct_write (filePath dir : String) (dirExists : Bool)
    (store : ContextStore) :
    save filePath dir dirExists store =
      (if dirExists then [] else [FsOp.mkdirOp dir]) ++
        [FsOp.writeFileOp filePath store]
    ∧ (save filePath dir dirExists store).any FsOp.isRename = false := by
  refine ⟨rfl, ?_⟩
  unfold save
  cases dirExists <;> rfl

theorem find?_id_append (l : List ContextEntry) (entry : ContextEntry)
    (h : ∀ e ∈ l, e.id ≠ entry.id) :
    (l ++ [entry]).find? (fun e => e.id = entry.id) = some entry := by
  induction l with
  | nil => simp
  | cons a as ih =>
    have ha : a.id ≠ entry.id := h a (by simp)
    rw [List.cons_append, List.find?_cons_of_neg _ (by simpa using ha)]
    exact ih (fun e he => h e (by simp [he]))

/-- Claim C3: immediately after `saveContext` returns an entry, looking it
up by its freshly generated ID returns that very entry, all fields equal to
the saved data with both timestamps set to the save time — provided the
generated ID does not collide with any stored ID (the code performs no
collision check; `randomUUID` freshness is the hypothesis). -/
theorem c3_save_get_roundtrip (store : ContextStore) (newId content : String)
    (tags : List String) (source : String) (now : Nat)
    (hfresh : ∀ e ∈ store.entries, e.id ≠ newId) :
    getContext (saveContext store newId content tags source now).2
        (saveContext store newId content tags source now).1.id =
      some (saveContext store newId content tags source now).1
    ∧ (saveContext store newId content tags source now).1 =
      { id := newId, content := content, tags := tags, source := source,
        createdAt := now, updatedAt := now } := by
  refine ⟨?_, rfl⟩
  simp only [saveContext, getContext]
  exact find?_id_append store.entries
    { id := newId, content := content, tags := tags, source := source,
      createdAt := now, updatedAt := now } hfresh

theorem c3_witness :
    getContext (saveContext { version := 1, entries := [] } "id-1" "hello"
        ["tag"] "chat" 5).2
        (saveContext { version := 1, entries := [] } "id-1" "hello"
          ["tag"] "chat" 5).1.id =
      some (saveContext { version := 1, entries := [] } "id-1" "hello"
        ["tag"] "chat" 5).1
    ∧ (saveContext { version := 1, entries := [] } "id-1" "hello"
        ["tag"] "chat" 5).1 =
      { id := "id-1", content := "hello", tags := ["tag"], source := "chat",
        createdAt := 5, updatedAt := 5 } :=
  c3_save_get_roundtrip { version := 1, entries := [] } "id-1" "hello"
    ["tag"] "chat" 5 (by intro e he; exact absurd he (List.not_mem_nil e))

/-- A concrete one-entry store used by the closed witness instances. -/
def sampleEntryA : ContextEntry :=
  { id := "a", content := "x", tags := [], source := "chat",
    createdAt := 0, updatedAt := 0 }

/-- A concrete store holding just `sampleEntryA`. -/
def sampleStoreA : ContextStore := { version := 1, entries := [sampleEntryA] }

/-- Claim C7: for an ID naming no entry, delete and update change nothing
and perform no file write, the REST handlers answer 404, and both tool
handlers answer with the explicit not-found text instead of throwing. -/
theorem c7_unknown_id (store : ContextStore) (id filePath dir : String)
    (dirExists : Bool) (content c : String) (tags : Option (List String))
    (now : Nat)
    (hid : ∀ e ∈ store.entries, e.id ≠ id) (hc : c ≠ "") :
    deleteContext store id = (false, store)
    ∧ deleteContextOps filePath dir dirExists store id = (false, [])
    ∧ updateContext store id content tags now = (none, store)
    ∧ updateContextOps filePath dir dirExists store id content tags now = (none, [])
    ∧ restGetContext store id = 404
    ∧ restPutContext store id (some c) tags now = 404
    ∧ restDeleteContext store id = 404
    ∧ mcpDeleteContextText store id = "No context found with ID \"" ++ id ++ "\"."
    ∧ mcpUpdateContextText store id content tags now =
        "No context found with ID \"" ++ id ++ "\"." := by
  have hfilter : store.entries.filter (fun entry => entry.id ≠ id) = store.entries :=
    List.filter_eq_self.mpr (fun a ha => by simpa using hid a ha)
  have hfind : store.entries.find? (fun e => e.id = id) = none :=
    List.find?_eq_none.mpr (fun a ha => by simpa using hid a ha)
  have hdel : deleteContext store id = (false, store) := by
    simp only [deleteContext]
    rw [hfilter]
    simp
  have hupd : updateContext store id content tags now = (none, store) := by
    unfold updateContext
    rw [hfind]
  have hupd2 : updateContext store id c tags now = (none, store) := by
    unfold updateContext
    rw [hfind]
  refine ⟨hdel, ?_, hupd, ?_, ?_, ?_, ?_, ?_, ?_⟩
  · simp only [deleteContextOps]
    rw [hfilter]
    simp
  · unfold updateContextOps
    rw [hfind]
  · unfold restGetContext getContext
    rw [hfind]
  · simp only [restPutContext]
    rw [if_neg hc, hupd2]
  · unfold restDeleteContext
    rw [hdel]
    rfl
  · unfold mcpDeleteContextText
    rw [hdel]
    rfl
  · unfold mcpUpdateContextText
    rw [hupd]

theorem c7_witness :
    deleteContext sampleStoreA "b" = (false, sampleStoreA)
    ∧ deleteContextOps "/s/contexts.json" "/s" true sampleStoreA "b" = (false, [])
    ∧ updateContext sampleStoreA "b" "new" none 7 = (none, sampleStoreA)
    ∧ updateContextOps "/s/contexts.json" "/s" true sampleStoreA "b" "new" none 7 =
        (none, [])
    ∧ restGetContext sampleStoreA "b" = 404
    ∧ restPutContext sampleStoreA "b" (some "new") none 7 = 404
    ∧ restDeleteContext sampleStoreA "b" = 404
    ∧ mcpDeleteContextText sampleStoreA "b" = "No context found with ID \"" ++ "b" ++ "\"."
    ∧ mcpUpdateContextText sampleStoreA "b" "new" none 7 =
        "No context found with ID \"" ++ "b" ++ "\"." :=
  c7_unknown_id sampleStoreA "b" "/s/contexts.json" "/s" true "new" "new" none 7
    (by intro e he; simp [sampleStoreA, sampleEntryA] at he; subst he; decide)
    (by decide)

theorem find?_id_first (pre : List ContextEntry) (e : ContextEntry)
    (post : List ContextEntry) (id : String)
    (hpre : ∀ p ∈ pre, p.id ≠ id) (he : e.id = id) :
    (pre ++ e :: post).find? (fun x => x.id = id) = some e := by
  induction pre with
  | nil =>
    rw [List.nil_append, List.find?_cons_of_pos _ (by simp [he])]
  | cons a as ih =>
    rw [List.cons_append, List.find?_cons_of_neg _ (by simpa using hpre a (by simp))]
    exact ih (fun p hp => hpre p (by simp [hp]))

theorem updateEntries_decompose (pre : List ContextEntry) (e : ContextEntry)
    (post : List ContextEntry) (id content : String)
    (tags : Option (List String)) (now : Nat)
    (hpre : ∀ p ∈ pre, p.id ≠ id) (he : e.id = id) :
    updateEntries id content tags now (pre ++ e :: post) =
      pre ++ updateEntry content tags now e :: post := by
  induction pre with
  | nil =>
    rw [List.nil_append, List.nil_append]
    simp only [updateEntries]
    rw [if_pos he]
  | cons a as ih =>
    rw [List.cons_append, List.cons_append]
    simp only [updateEntries]
    rw [if_neg (hpre a (by simp))]
    rw [ih (fun p hp => hpre p (by simp [hp]))]

/-- Claim C9: `updateContext` on a missing ID leaves the store untouched;
on a found ID it rewrites only the first entry carrying that ID — new
content, new `updatedAt`, tags replaced only when the argument is given —
while the entry's `id`, `source`, `createdAt` and every other entry are
unchanged. -/
theorem c9_update_frame (store : ContextStore) (id content : String)
    (tags : Option (List String)) (now : Nat) :
    (id ∉ store.entries.map ContextEntry.id →
      updateContext store id content tags now = (none, store))
    ∧ (∀ pre e post, store.entries = pre ++ e :: post → e.id = id →
        (∀ p ∈ pre, p.id ≠ id) →
        updateContext store id content tags now =
          (some (updateEntry content tags now e),
           { store with entries := pre ++ updateEntry content tags now e :: post })
        ∧ (updateEntry content tags now e).id = e.id
        ∧ (updateEntry content tags now e).source = e.source
        ∧ (updateEntry content tags now e).createdAt = e.createdAt
        ∧ (updateEntry content tags now e).content = content
        ∧ (updateEntry content tags now e).updatedAt = now
        ∧ (tags = none → (updateEntry content tags now e).tags = e.tags)
        ∧ (∀ ts, tags = some ts → (updateEntry content tags now e).tags = ts)) := by
  constructor
  · intro hnot
    have hfresh : ∀ a ∈ store.entries, a.id ≠ id := by
      intro a ha hEq
      have hin := List.mem_map_of_mem ContextEntry.id ha
      rw [hEq] at hin
      exact hnot hin
    unfold updateContext
    rw [List.find?_eq_none.mpr (fun a ha => by simpa using hfresh a ha)]
  · intro pre e post hsplit he hpre
    have hfind := find?_id_first pre e post id hpre he
    have hupd := updateEntries_decompose pre e post id content tags now hpre he
    refine ⟨?_, rfl, rfl, rfl, rfl, rfl, ?_, ?_⟩
    · unfold updateContext
      rw [hsplit, hfind, hupd]
    · intro ht
      subst ht
      rfl
    · intro ts ht
      subst ht
      rfl

theorem c9_witness :
    updateContext sampleStoreA "a" "new" none 7 =
      (some (updateEntry "new" none 7 sampleEntryA),
       { sampleStoreA with entries := [updateEntry "new" none 7 sampleEntryA] }) :=
  ((c9_update_frame sampleStoreA "a" "new" none 7).2 [] sampleEntryA [] rfl rfl
    (by intro p hp; exact absurd hp (List.not_mem_nil p))).1

theorem updateEntries_mem (id content : String) (tags : Option (List String))
    (now : Nat) :
    ∀ (l : List ContextEntry), ∀ e' ∈ updateEntries id content tags now l,
      e' ∈ l ∨ ∃ e ∈ l, e' = updateEntry content tags now e := by
  intro l
  induction l with
  | nil =>
    intro e' h
    simp only [updateEntries] at h
    exact absurd h (List.not_mem_nil e')
  | cons a as ih =>
    intro e' h
    simp only [updateEntries] at h
    by_cases ha : a.id = id
    · rw [if_pos ha] at h
      rcases List.mem_cons.mp h with heq | hmem
      · exact Or.inr ⟨a, List.mem_cons_self a as, heq⟩
      · exact Or.inl (List.mem_cons_of_mem a hmem)
    · rw [if_neg ha] at h
      rcases List.mem_cons.mp h with heq | hmem
      · exact Or.inl (heq ▸ List.mem_cons_self a as)
      · rcases ih e' hmem with hin | ⟨e, hm, hrw⟩
        · exact Or.inl (List.mem_cons_of_mem a hin)
        · exact Or.inr ⟨e, List.mem_cons_of_mem a hm, hrw⟩

theorem applyOp_timestamps (store : ContextStore) (op : StoreOp) (t now : Nat)
    (hinv : updatedLE store t) (hle : t ≤ now) :
    (∀ e' ∈ (applyOp store op now).entries,
        (∃ e ∈ store.entries, e.id = e'.id ∧ e.createdAt = e'.createdAt
          ∧ e.updatedAt ≤ e'.updatedAt)
        ∨ (e'.createdAt = now ∧ e'.updatedAt = now))
    ∧ updatedLE (applyOp store op now) now := by
  cases op with
  | saveOp newId content tags source =>
    simp only [applyOp, saveContext]
    constructor
    · intro e' he'
      rcases List.mem_append.mp he' with hmem | hnew
      · exact Or.inl ⟨e', hmem, rfl, rfl, le_refl _⟩
      · rcases List.mem_singleton.mp hnew with rfl
        exact Or.inr ⟨rfl, rfl⟩
    · intro e' he'
      rcases List.mem_append.mp he' with hmem | hnew
      · exact le_trans (hinv e' hmem) hle
      · rcases List.mem_singleton.mp hnew with rfl
        exact le_refl _
  | updateOp id content tags =>
    simp only [applyOp, updateContext]
    cases hf : store.entries.find? (fun e => e.id = id) with
    | none =>
      constructor
      · intro e' he'
        exact Or.inl ⟨e', he', rfl, rfl, le_refl _⟩
      · intro e' he'
        exact le_trans (hinv e' he') hle
    | some e =>
      constructor
      · intro e' he'
        rcases updateEntries_mem id content tags now store.entries e' he' with hin | ⟨e0, hm, hrw⟩
        · exact Or.inl ⟨e', hin, rfl, rfl, le_refl _⟩
        · subst hrw
          exact Or.inl ⟨e0, hm, rfl, rfl, le_trans (hinv e0 hm) hle⟩
      · intro e' he'
        rcases updateEntries_mem id content tags now store.entries e' he' with hin | ⟨e0, hm, hrw⟩
        · exact le_trans (hinv e' hin) hle
        · subst hrw
          exact le_refl _
  | deleteOp id =>
    simp only [applyOp, deleteContext]
    by_cases hlen : (store.entries.filter (fun entry => entry.id ≠ id)).length <
        store.entries.length
    · rw [if_pos hlen]
      constructor
      · intro e' he'
        exact Or.inl ⟨e', (List.mem_filter.mp he').1, rfl, rfl, le_refl _⟩
      · intro e' he'
        exact le_trans (hinv e' (List.mem_filter.mp he').1) hle
    · rw [if_neg hlen]
      constructor
      · intro e' he'
        exact Or.inl ⟨e', he', rfl, rfl, le_refl _⟩
      · intro e' he'
        exact le_trans (hinv e' he') hle

theorem runOps_updatedLE : ∀ (ops : List (StoreOp × Nat)) (store : ContextStore)
    (t : Nat), updatedLE store t → chronoOps t ops →
    updatedLE (runOps store ops) (endTimeOps t ops) := by
  intro ops
  induction ops with
  | nil =>
    intro store t hinv _
    exact hinv
  | cons p rest ih =>
    intro store t hinv hch
    obtain ⟨op, t'⟩ := p
    obtain ⟨hle, hch'⟩ := hch
    exact ih (applyOp store op t') t'
      (applyOp_timestamps store op t t' hinv hle).2 hch'

/-- Claim C4: across any store operation and any chronological operation
sequence, `createdAt` is set exactly at creation time and never modified
afterwards, and every mutation sets `updatedAt` to the current clock, which
is at least its previous value (non-decreasing clock assumed). -/
theorem c4_timestamp_invariants :
    (∀ (store : ContextStore) (op : StoreOp) (t now : Nat),
        updatedLE store t → t ≤ now →
        (∀ e' ∈ (applyOp store op now).entries,
            (∃ e ∈ store.entries, e.id = e'.id ∧ e.createdAt = e'.createdAt
              ∧ e.updatedAt ≤ e'.updatedAt)
            ∨ (e'.createdAt = now ∧ e'.updatedAt = now))
        ∧ updatedLE (applyOp store op now) now)
    ∧ (∀ (store : ContextStore) (t : Nat) (ops : List (StoreOp × Nat)),
        updatedLE store t → chronoOps t ops →
        updatedLE (runOps store ops) (endTimeOps t ops)) :=
  ⟨fun store op t now hinv hle => applyOp_timestamps store op t now hinv hle,
   fun store t ops hinv hch => runOps_updatedLE ops store t hinv hch⟩

theorem c4_witness :
    updatedLE (runOps sampleStoreA [(StoreOp.updateOp "a" "y" none, 7)])
      (endTimeOps 0 [(StoreOp.updateOp "a" "y" none, 7)]) :=
  c4_timestamp_invariants.2 sampleStoreA 0 [(StoreOp.updateOp "a" "y" none, 7)]
    (by
      intro e he
      simp only [sampleStoreA, sampleEntryA, List.mem_singleton] at he
      subst he
      decide)
    ⟨by omega, trivial⟩

/-- Final clock reading of a save sequence starting at `t`. -/
def endTimeSaves : Nat → List (String × String × List String × String × Nat) → Nat
  | t, [] => t
  | _, (_, _, _, _, t') :: rest => endTimeSaves t' rest

theorem recallContext_sublist (store : ContextStore) (query : String) :
    (recallContext store query).Sublist store.entries :=
  List.filter_sublist store.entries

theorem searchContexts_sublist (store : ContextStore) (query : String) :
    (searchContexts store query).Sublist store.entries :=
  List.filter_sublist store.entries

theorem listContexts_sublist (store : ContextStore) (tag : Option String) :
    (listContexts store tag).Sublist store.entries := by
  cases tag with
  | none => exact List.Sublist.refl _
  | some t =>
    simp only [listContexts]
    by_cases h : t = ""
    · rw [if_pos h]
    · rw [if_neg h]
      exact List.filter_sublist store.entries

theorem runSaves_sorted :
    ∀ (saves : List (String × String × List String × String × Nat))
      (store : ContextStore) (t : Nat),
      createdLE store t → sortedByCreated store.entries → chronoSaves t saves →
      sortedByCreated (runSaves store saves).entries
      ∧ createdLE (runSaves store saves) (endTimeSaves t saves) := by
  intro saves
  induction saves with
  | nil =>
    intro store t _ hsort
    exact fun _ => ⟨hsort, by assumption⟩
  | cons p rest ih =>
    intro store t hcle hsort hch
    obtain ⟨i, c, tg, s, t'⟩ := p
    obtain ⟨hle, hch'⟩ := hch
    refine ih (saveContext store i c tg s t').2 t' ?_ ?_ hch'
    · intro e he
      simp only [saveContext] at he
      rcases List.mem_append.mp he with hmem | hnew
      · exact le_trans (hcle e hmem) hle
      · rcases List.mem_singleton.mp hnew with rfl
        exact le_refl _
    · simp only [saveContext, sortedByCreated]
      rw [List.pairwise_append]
      refine ⟨hsort, List.pairwise_singleton _ _, ?_⟩
      intro a ha b hb
      rcases List.mem_singleton.mp hb with rfl
      exact le_trans (hcle a ha) hle

/-- Claim C10: `saveContext` appends the new entry at the end, the read
operations return order-preserving sublists of the stored entries, and so
after any chronological sequence of saves their results are ordered
oldest-created first. -/
theorem c10_append_and_order :
    (∀ (store : ContextStore) (newId content : String) (tags : List String)
        (source : String) (now : Nat),
        (saveContext store newId content tags source now).2.entries =
          store.entries ++ [(saveContext store newId content tags source now).1])
    ∧ (∀ (store : ContextStore) (query : String),
        (recallContext store query).Sublist store.entries
        ∧ (searchContexts store query).Sublist store.entries)
    ∧ (∀ (store : ContextStore) (tag : Option String),
        (listContexts store tag).Sublist store.entries)
    ∧ (∀ (t : Nat) (saves : List (String × String × List String × String × Nat)),
        chronoSaves t saves →
        sortedByCreated
          (runSaves { version := STORE_VERSION, entries := [] } saves).entries
        ∧ ∀ (query : String) (tag : Option String),
            sortedByCreated
              (recallContext (runSaves { version := STORE_VERSION, entries := [] } saves) query)
            ∧ sortedByCreated
              (searchContexts (runSaves { version := STORE_VERSION, entries := [] } saves) query)
            ∧ sortedByCreated
              (listContexts (runSaves { version := STORE_VERSION, entries := [] } saves) tag)) := by
  refine ⟨fun store newId content tags source now => rfl,
    fun store query => ⟨recallContext_sublist store query, searchContexts_sublist store query⟩,
    fun store tag => listContexts_sublist store tag,
    fun t saves hch => ?_⟩
  have h := runSaves_sorted saves { version := STORE_VERSION, entries := [] } t
    (fun e he => absurd he (List.not_mem_nil e))
    (List.Pairwise.nil) hch
  refine ⟨h.1, fun query tag => ?_⟩
  exact ⟨List.Pairwise.sublist (recallContext_sublist _ query) h.1,
    List.Pairwise.sublist (searchContexts_sublist _ query) h.1,
    List.Pairwise.sublist (listContexts_sublist _ tag) h.1⟩

theorem c10_witness :
    sortedByCreated
      (runSaves { version := STORE_VERSION, entries := [] }
        [("id-a", "first", [], "chat", 1), ("id-b", "second", [], "chat", 2)]).entries :=
  (c10_append_and_order.2.2.2 0
    [("id-a", "first", [], "chat", 1), ("id-b", "second", [], "chat", 2)]
    ⟨by omega, by omega, trivial⟩).1

theorem find?_aware_id_unique :
    ∀ (l : List AwareEntry) (e : AwareEntry), e ∈ l →
      (∀ x ∈ l, x.id = e.id → x = e) →
      l.find? (fun x => x.id = e.id) = some e := by
  intro l
  induction l with
  | nil =>
    intro e he
    exact absurd he (List.not_mem_nil e)
  | cons a as ih =>
    intro e he huniq
    by_cases ha : a.id = e.id
    · rw [List.find?_cons_of_pos _ (by simp [ha])]
      rw [huniq a (List.mem_cons_self a as) ha]
    · rw [List.find?_cons_of_neg _ (by simpa using ha)]
      have he' : e ∈ as := by
        rcases List.mem_cons.mp he with rfl | h
        · exact absurd rfl ha
        · exact h
      exact ih e he' (fun x hx => huniq x (List.mem_cons_of_mem a hx))

/-- Claim C1 (modelled from the spec; this part of the store is absent from
`src`, only its tests exist): an archived entry never appears in recall,
search, list, or typed-query results, yet remains retrievable by direct ID
lookup and appears in the archive list. -/
theorem c1_archived_excluded (s : AwareStore) (e : AwareEntry)
    (query ty : String) (tag : Option String) (filt : List (String × SValue))
    (hmem : e ∈ s.entries) (harch : e.archived = true)
    (huniq : ∀ x ∈ s.entries, x.id = e.id → x = e) :
    e ∉ awareRecallContext s query
    ∧ e ∉ awareSearchContexts s query
    ∧ e ∉ awareListContexts s tag
    ∧ e ∉ queryByType s ty filt
    ∧ awareGetContext s e.id = some e
    ∧ e ∈ listArchived s := by
  have hact : e ∉ activeEntries s := by
    intro h
    have hb := (List.mem_filter.mp h).2
    rw [harch] at hb
    exact absurd hb (by simp)
  refine ⟨fun h => hact (List.mem_filter.mp h).1,
    fun h => hact (List.mem_filter.mp h).1, ?_,
    fun h => hact (List.mem_filter.mp h).1, ?_, ?_⟩
  · intro h
    apply hact
    cases tag with
    | none => exact h
    | some t =>
      simp only [awareListContexts] at h
      by_cases ht : t = ""
      · rw [if_pos ht] at h
        exact h
      · rw [if_neg ht] at h
        exact (List.mem_filter.mp h).1
  · exact find?_aware_id_unique s.entries e hmem huniq
  · exact List.mem_filter.mpr ⟨hmem, harch⟩

/-- A concrete archived entry for the closed witness instance of C1. -/
def sampleAware : AwareEntry :=
  { id := "a", content := "secret note", tags := ["t"], source := "chat",
    contextType := some "decision", structuredData := none, archived := true,
    createdAt := 0, updatedAt := 0 }

/-- A concrete self-aware store holding just the archived `sampleAware`. -/
def sampleAwareStore : AwareStore := { version := 1, entries := [sampleAware] }

theorem c1_witness :
    sampleAware ∉ awareRecallContext sampleAwareStore "secret"
    ∧ sampleAware ∉ awareSearchContexts sampleAwareStore "secret"
    ∧ sampleAware ∉ awareListContexts sampleAwareStore (some "t")
    ∧ sampleAware ∉ queryByType sampleAwareStore "decision" []
    ∧ awareGetContext sampleAwareStore sampleAware.id = some sampleAware
    ∧ sampleAware ∈ listArchived sampleAwareStore :=
  c1_archived_excluded sampleAwareStore sampleAware "secret" "decision" (some "t") []
    (by simp [sampleAwareStore]) rfl
    (by
      intro x hx _
      simp only [sampleAwareStore, List.mem_singleton] at hx
      exact hx)
